import Mathlib

/-!
Verification of the batch cache of the on-demand ordering service
(`src/irohad/ordering/impl/batches_cache.cpp`).

The pure shallow embedding below translates the source file's data and
operations.  External interfaces (`TransactionBatch`, signature primitives) are
modelled from the spec where the spec describes them, as noted on each
definition.  Machine integers (`uint64_t`, `TimestampType`) are modelled by
`Nat`: the counters only ever subtract quantities previously added, so no
wrap-around is reachable around the claims proved here.
-/

namespace Iroha

/-- A transaction signature, `{signed_data, public_key}`.  The hex strings of
the source are modelled by numeric identifiers; only equality of signatures
matters to the cache. -/
structure Signature where
  signedData : Nat
  publicKey : Nat
deriving DecidableEq

/-- Modelled from the spec: a transaction is an abstract object for the cache and exposes
`hash`, `created_time`, its signature list and a quorum (the number of
required signatures). -/
structure Transaction where
  hash : Nat
  createdTime : Nat
  quorum : Nat
  signatures : List Signature
deriving DecidableEq

/-- Modelled from the spec: the environment's signature-merge primitive
`add_signature(signed, pubkey) -> bool` returns whether the signature was new;
the signature store of a transaction behaves as a set. -/
def Transaction.addSignature (tx : Transaction) (s : Signature) : Transaction × Bool :=
  if s ∈ tx.signatures then (tx, false)
  else ({ tx with signatures := tx.signatures ++ [s] }, true)

/-- Modelled from the spec: a batch is an ordered sequence of transactions with
a `reduced_hash` identity that ignores signatures. -/
structure Batch where
  reducedHash : Nat
  transactions : List Transaction
deriving DecidableEq

/-- Modelled from the spec: `has_all_signatures()` is true iff every required
signature is present, i.e. every transaction has reached its quorum. -/
def Batch.hasAllSignatures (b : Batch) : Bool :=
  b.transactions.all fun tx => tx.quorum ≤ tx.signatures.length

/-- Function `oldestTimestamp` (batches_cache.cpp lines 16-22): the accumulator starts
at `0ull` and is folded with `std::min` over the transactions' created times,
exactly as in the source. -/
def oldestTimestamp (b : Batch) : Nat :=
  b.transactions.foldl (fun ts tx => min ts tx.createdTime) 0

/-- Inner loop of `mergeSignaturesInBatch`: fold every donor signature into the
target transaction, reporting whether any was new (lines 38-46). -/
def Transaction.addSignatures : Transaction → List Signature → Transaction × Bool
  | tx, [] => (tx, false)
  | tx, s :: rest =>
    (((tx.addSignature s).1.addSignatures rest).1,
     (tx.addSignature s).2 || ((tx.addSignature s).1.addSignatures rest).2)

/-- Pairwise walk of `mergeSignaturesInBatch` over the two positionally aligned
transaction lists (lines 31-50); the walk stops at the shorter list. -/
def mergeTxLists : List Transaction → List Transaction → List Transaction × Bool
  | [], _ => ([], false)
  | t :: ts, [] => (t :: ts, false)
  | t :: ts, d :: ds =>
    ((t.addSignatures d.signatures).1 :: (mergeTxLists ts ds).1,
     (t.addSignatures d.signatures).2 || (mergeTxLists ts ds).2)

/-- Function `mergeSignaturesInBatch` (lines 24-52): merges the donor's signatures into
the target batch in place and returns whether any signature was new. -/
def mergeSignaturesInBatch (target donor : Batch) : Batch × Bool :=
  ({ target with
      transactions := (mergeTxLists target.transactions donor.transactions).1 },
   (mergeTxLists target.transactions donor.transactions).2)

/-- Value of `mst_pending_`: `{batch, timestamp}` per reduced hash. -/
structure PendingEntry where
  batch : Batch
  timestamp : Nat
deriving DecidableEq

/-- The MST (pending) store: `mst_pending_ : reduced_hash -> PendingEntry` and
`mst_expirations_ : timestamp -> batch`.  The expiration map's value is a
shared pointer to the resident batch; that stable pointer identity is modelled
by the batch's reduced hash. -/
structure MSTState where
  mst_pending : List (Nat × PendingEntry)
  mst_expirations : List (Nat × Nat)
deriving DecidableEq

/-- One step of the timestamp probe `while (!mst_expirations_.emplace(ts, batch).second) ++ts;`
(line 122).  The fuel argument bounds the recursion; the probe visits at most
`keys.length` occupied timestamps, so the fuel used below never runs out. -/
def probeFrom (keys : List Nat) : Nat → Nat → Nat
  | ts, 0 => ts
  | ts, fuel + 1 => if ts ∈ keys then probeFrom keys (ts + 1) fuel else ts

/-- The linear timestamp probe of `insertMSTCache`, starting from `ts`. -/
def probeTs (keys : List Nat) (ts : Nat) : Nat :=
  probeFrom keys ts (keys.length + 1)

/-- Type `BatchesContext` (lines 58-112): a deduplicated batch set plus the cached
transaction count `tx_count_`. -/
structure BatchesContext where
  batches_ : List Batch
  tx_count_ : Nat
deriving DecidableEq

/-- Function `BatchesContext::count` (lines 60-67): `std::accumulate` of the
transaction counts over a batch set. -/
def BatchesContext.count (src : List Batch) : Nat :=
  (src.map fun b => b.transactions.length).sum

/-- Function `BatchesContext::insert` (lines 77-85): insert if absent and bump
`tx_count_`; returns whether inserted. -/
def BatchesContext.insert (ctx : BatchesContext) (b : Batch) : BatchesContext × Bool :=
  if b ∈ ctx.batches_ then (ctx, false)
  else ({ batches_ := ctx.batches_ ++ [b],
          tx_count_ := ctx.tx_count_ + b.transactions.length }, true)

/-- Function `BatchesContext::removeBatch` (lines 87-96): erase and decrement
`tx_count_` when the batch was present. -/
def BatchesContext.removeBatch (ctx : BatchesContext) (b : Batch) : BatchesContext × Bool :=
  if b ∈ ctx.batches_ then
    ({ batches_ := ctx.batches_.erase b,
       tx_count_ := ctx.tx_count_ - b.transactions.length }, true)
  else (ctx, false)

/-- The loop of `BatchesContext::merge` (lines 98-112): walk the donor's
batches, moving each one absent from `self` across and adjusting both counts;
duplicates stay behind.  Arguments: current `self`, remaining donor batches,
current donor count.  Returns the final `self`, the batches left in the donor
and the donor's final count. -/
def mergeLoop : BatchesContext → List Batch → Nat → BatchesContext × List Batch × Nat
  | self, [], fromCount => (self, [], fromCount)
  | self, b :: rest, fromCount =>
    if b ∈ self.batches_ then
      let r := mergeLoop self rest fromCount
      (r.1, b :: r.2.1, r.2.2)
    else
      mergeLoop { batches_ := self.batches_ ++ [b],
                  tx_count_ := self.tx_count_ + b.transactions.length }
        rest (fromCount - b.transactions.length)

/-- Function `BatchesContext::merge` (lines 98-112). -/
def BatchesContext.merge (self from_ : BatchesContext) : BatchesContext × BatchesContext :=
  let r := mergeLoop self from_.batches_ from_.tx_count_
  (r.1, { batches_ := r.2.1, tx_count_ := r.2.2 })

/-- Modelled from the spec: `BatchesContext::remove(pred)` (`retain_not`) is
declared in `batches_cache.hpp`, which is not among the sources; per the spec
it removes every batch satisfying the predicate and decrements `txs_count`
accordingly. -/
def BatchesContext.removeIf (ctx : BatchesContext) (p : Batch → Bool) : BatchesContext :=
  { batches_ := ctx.batches_.filter fun b => !p b,
    tx_count_ := ctx.tx_count_ - BatchesContext.count (ctx.batches_.filter p) }

/-- Notifications published through `getSubscription()->notify`:
`kOnMstStateUpdate` and `kOnMstPreparedBatches`.  The payload of a prepared
notification is optional because the direct-complete branch of
`BatchesCache::insert` (line 183) notifies with `it_batch->second.batch`, a
name that is not in scope in that function; that undefined payload is modelled
by `none`. -/
inductive Event where
  | stateUpdate (b : Batch)
  | preparedBatches (b : Option Batch)
deriving DecidableEq

/-- Type `BatchesCache` (batches_cache.hpp/cpp): the available set `batches_cache_`,
the in-flight set `used_batches_cache_` and the MST pending store `mst_state_`. -/
structure BatchesCache where
  batches_cache_ : BatchesContext
  used_batches_cache_ : BatchesContext
  mst_state_ : MSTState
deriving DecidableEq

/-- Function `BatchesCache::insertMSTCache` (lines 114-144).  On a fresh reduced hash
the batch is inserted with the first probed-free timestamp and
`kOnMstStateUpdate` is notified; otherwise signatures are merged into the
resident batch in place, completing batches are promoted into
`batches_cache_` and erased from both pending indices (the source notifies
with the erased iterator's batch; the value that iterator held is the merged
batch). -/
def BatchesCache.insertMSTCache (c : BatchesCache) (batch : Batch) :
    BatchesCache × List Event :=
  match c.mst_state_.mst_pending.find? (fun p => p.1 == batch.reducedHash) with
  | none =>
    ({ c with mst_state_ :=
        { mst_pending := c.mst_state_.mst_pending
            ++ [(batch.reducedHash,
                 ⟨batch, probeTs (c.mst_state_.mst_expirations.map (fun e => e.1))
                           (oldestTimestamp batch)⟩)],
          mst_expirations := c.mst_state_.mst_expirations
            ++ [(probeTs (c.mst_state_.mst_expirations.map (fun e => e.1))
                   (oldestTimestamp batch),
                 batch.reducedHash)] } },
     [Event.stateUpdate batch])
  | some entry =>
    if (mergeSignaturesInBatch entry.2.batch batch).2 then
      if (mergeSignaturesInBatch entry.2.batch batch).1.hasAllSignatures then
        ({ c with
            batches_cache_ :=
              (c.batches_cache_.insert (mergeSignaturesInBatch entry.2.batch batch).1).1,
            mst_state_ :=
              { mst_pending :=
                  c.mst_state_.mst_pending.eraseP (fun p => p.1 == batch.reducedHash),
                mst_expirations :=
                  c.mst_state_.mst_expirations.eraseP
                    (fun e => e.1 == entry.2.timestamp) } },
         [Event.preparedBatches (some (mergeSignaturesInBatch entry.2.batch batch).1)])
      else
        ({ c with mst_state_ :=
            { c.mst_state_ with mst_pending := c.mst_state_.mst_pending.map fun p =>
                if p.1 == batch.reducedHash then
                  (p.1, ⟨(mergeSignaturesInBatch entry.2.batch batch).1, p.2.timestamp⟩)
                else p } },
         [Event.stateUpdate (mergeSignaturesInBatch entry.2.batch batch).1])
    else (c, [])

/-- Function `BatchesCache::removeMSTCache(batch)` (lines 146-154): drop the pending
entry with the batch's reduced hash, and its timestamp from the expiration
index. -/
def BatchesCache.removeMSTCacheB (c : BatchesCache) (batch : Batch) : BatchesCache :=
  match c.mst_state_.mst_pending.find? (fun p => p.1 == batch.reducedHash) with
  | none => c
  | some entry =>
    { c with mst_state_ :=
        { mst_pending :=
            c.mst_state_.mst_pending.eraseP (fun p => p.1 == batch.reducedHash),
          mst_expirations :=
            c.mst_state_.mst_expirations.eraseP (fun e => e.1 == entry.2.timestamp) } }

/-- Does the batch contain a transaction whose hash is in `hashes`
(the `std::any_of` of lines 160-164 and 199-203)? -/
def needRemove (hashes : List Nat) (b : Batch) : Bool :=
  b.transactions.any fun tx => hashes.contains tx.hash

/-- The loop of `BatchesCache::removeMSTCache(hashes)` (lines 156-172): walk
the pending entries, erasing each matching entry together with its timestamp. -/
def pruneLoop (hashes : List Nat) :
    List (Nat × PendingEntry) → List (Nat × Nat) →
    List (Nat × PendingEntry) × List (Nat × Nat)
  | [], exps => ([], exps)
  | p :: rest, exps =>
    if needRemove hashes p.2.batch then
      pruneLoop hashes rest (exps.eraseP (fun e => e.1 == p.2.timestamp))
    else
      let r := pruneLoop hashes rest exps
      (p :: r.1, r.2)

/-- Function `BatchesCache::removeMSTCache(hashes)` (lines 156-172). -/
def BatchesCache.removeMSTCacheH (c : BatchesCache) (hashes : List Nat) : BatchesCache :=
  { c with mst_state_ :=
      { mst_pending :=
          (pruneLoop hashes c.mst_state_.mst_pending c.mst_state_.mst_expirations).1,
        mst_expirations :=
          (pruneLoop hashes c.mst_state_.mst_pending c.mst_state_.mst_expirations).2 } }

/-- Function `BatchesCache::insert` (lines 174-188): a fully signed batch absent from
`used_batches_cache_` goes straight into `batches_cache_`, its pending entry
is dropped and `kOnMstPreparedBatches` is notified (with the out-of-scope
`it_batch->second.batch`, modelled `none`); an incomplete batch is delegated
to `insertMSTCache`.  Returns the new state, the notifications and the
returned `batches_cache_.getTxsCount()`. -/
def BatchesCache.insertB (c : BatchesCache) (batch : Batch) :
    BatchesCache × List Event × Nat :=
  if batch.hasAllSignatures then
    (((if batch ∈ c.used_batches_cache_.batches_ then c
       else { c with batches_cache_ := (c.batches_cache_.insert batch).1
            }).removeMSTCacheB batch),
     [Event.preparedBatches none],
     ((if batch ∈ c.used_batches_cache_.batches_ then c
       else { c with batches_cache_ := (c.batches_cache_.insert batch).1
            }).removeMSTCacheB batch).batches_cache_.tx_count_)
  else
    ((c.insertMSTCache batch).1, (c.insertMSTCache batch).2,
     (c.insertMSTCache batch).1.batches_cache_.tx_count_)

/-- Function `BatchesCache::remove(hashes)` (lines 190-205): prune the pending store,
fold `used_batches_cache_` back into `batches_cache_`, then filter out every
batch touching one of the hashes. -/
def BatchesCache.removeH (c : BatchesCache) (hashes : List Nat) : BatchesCache :=
  { c.removeMSTCacheH hashes with
      batches_cache_ :=
        (((c.removeMSTCacheH hashes).batches_cache_.merge
            (c.removeMSTCacheH hashes).used_batches_cache_).1).removeIf
          (needRemove hashes),
      used_batches_cache_ :=
        ((c.removeMSTCacheH hashes).batches_cache_.merge
            (c.removeMSTCacheH hashes).used_batches_cache_).2 }

/-- Function `BatchesCache::txsCount` (lines 212-215). -/
def BatchesCache.txsCount (c : BatchesCache) : Nat :=
  c.batches_cache_.tx_count_ + c.used_batches_cache_.tx_count_

/-- Function `BatchesCache::availableTxsCount` (lines 217-220). -/
def BatchesCache.availableTxsCount (c : BatchesCache) : Nat :=
  c.batches_cache_.tx_count_

/-- Function `BatchesCache::isEmpty` (lines 207-210). -/
def BatchesCache.isEmpty (c : BatchesCache) : Bool :=
  c.batches_cache_.batches_.isEmpty

/-- Function `BatchesCache::processReceivedProposal` (lines 228-236): move each listed
batch from `batches_cache_` to `used_batches_cache_`. -/
def BatchesCache.processReceivedProposal (c : BatchesCache) (batches : List Batch) :
    BatchesCache :=
  batches.foldl
    (fun acc b =>
      { acc with batches_cache_ := (acc.batches_cache_.removeBatch b).1,
                 used_batches_cache_ := (acc.used_batches_cache_.insert b).1 })
    c

/-- The cache constructed by `BatchesCache`'s default state: everything empty. -/
def emptyCache : BatchesCache :=
  { batches_cache_ := { batches_ := [], tx_count_ := 0 },
    used_batches_cache_ := { batches_ := [], tx_count_ := 0 },
    mst_state_ := { mst_pending := [], mst_expirations := [] } }

/-- One public mutating operation of the cache. -/
inductive CacheOp where
  | ins (b : Batch)
  | rem (hashes : List Nat)
  | claim (bs : List Batch)
deriving DecidableEq

/-- Apply one public operation (dropping the notifications and return value). -/
def applyOp (c : BatchesCache) : CacheOp → BatchesCache
  | .ins b => (c.insertB b).1
  | .rem hs => c.removeH hs
  | .claim bs => c.processReceivedProposal bs

/-- Run a sequence of public operations from a given state. -/
def runOps (c : BatchesCache) (ops : List CacheOp) : BatchesCache :=
  ops.foldl applyOp c

/-- States reachable from the empty cache through the public interface. -/
inductive Reachable : BatchesCache → Prop
  | empty : Reachable emptyCache
  | step {c : BatchesCache} (op : CacheOp) : Reachable c → Reachable (applyOp c op)

/-- Number of `kOnMstPreparedBatches` notifications in an event list. -/
def countPrepared (evs : List Event) : Nat :=
  evs.countP fun e => match e with
    | Event.preparedBatches _ => true
    | _ => false

/-! Concrete data used by the evaluations: one logical batch (reduced hash 1)
over a single transaction (hash 100, created time 10, quorum 2), in three
signature states: fully signed, signed by party A only, signed by party B
only. -/

def sigA : Signature := ⟨1, 1⟩

def sigB : Signature := ⟨2, 2⟩

def txBoth : Transaction := ⟨100, 10, 2, [sigA, sigB]⟩

def txOnlyA : Transaction := ⟨100, 10, 2, [sigA]⟩

def txOnlyB : Transaction := ⟨100, 10, 2, [sigB]⟩

def batchFull : Batch := ⟨1, [txBoth]⟩

def batchPartA : Batch := ⟨1, [txOnlyA]⟩

def batchPartB : Batch := ⟨1, [txOnlyB]⟩

/-- One lock acquisition or release: the MST pending lock (`mst_state_`'s
exclusive access, `L_pending`) or the availability lock
(`batches_cache_cs_`, `L_cache`). -/
inductive LockEv where
  | acqPending
  | relPending
  | acqCache
  | relCache
deriving DecidableEq

/-- Lock events of `BatchesCache::insertMSTCache` (lines 116-143): the MST
lock for the whole body; the promotion branch additionally takes
`batches_cache_cs_` (line 130). -/
def insertMSTCacheLockTrace (promotes : Bool) : List LockEv :=
  [LockEv.acqPending]
    ++ (if promotes then [LockEv.acqCache, LockEv.relCache] else [])
    ++ [LockEv.relPending]

/-- Lock events of `BatchesCache::removeMSTCache` (lines 146-154). -/
def removeMSTCacheLockTrace : List LockEv :=
  [LockEv.acqPending, LockEv.relPending]

/-- Lock events of `BatchesCache::insert` (lines 174-188): `batches_cache_cs_`
is taken for the whole body (line 176); the complete branch then calls
`removeMSTCache` (line 182) and the incomplete branch calls `insertMSTCache`
(line 185), each of which takes the MST lock. -/
def insertLockTrace (complete promotes : Bool) : List LockEv :=
  [LockEv.acqCache]
    ++ (if complete then removeMSTCacheLockTrace else insertMSTCacheLockTrace promotes)
    ++ [LockEv.relCache]

/-- Checks the discipline claimed by the spec: `L_pending` is never acquired
while `L_cache` is held (the counter tracks the `L_cache` hold depth). -/
def noPendingUnderCache : List LockEv → Nat → Bool
  | [], _ => true
  | LockEv.acqCache :: r, n => noPendingUnderCache r (n + 1)
  | LockEv.relCache :: r, n => noPendingUnderCache r (n - 1)
  | LockEv.acqPending :: r, n => n == 0 && noPendingUnderCache r n
  | LockEv.relPending :: r, n => noPendingUnderCache r n

/-- Checks that the non-recursive `batches_cache_cs_` is never acquired while
already held. -/
def noRecursiveCacheLock : List LockEv → Nat → Bool
  | [], _ => true
  | LockEv.acqCache :: r, n => n == 0 && noRecursiveCacheLock r (n + 1)
  | LockEv.relCache :: r, n => noRecursiveCacheLock r (n - 1)
  | _ :: r, n => noRecursiveCacheLock r n

/-- The invariant the spec states for a `BatchesContext`: the cached
`tx_count_` equals the sum of the transaction counts of the member batches
(the condition of the asserts at lines 83, 94, 110-111). -/
abbrev ctxWF (ctx : BatchesContext) : Prop :=
  BatchesContext.count ctx.batches_ = ctx.tx_count_

/-- One mutation of a `BatchesContext`. -/
inductive CtxOp where
  | insOp (b : Batch)
  | remOp (b : Batch)
  | mergeOp (from_ : BatchesContext)

/-- Apply one mutation; for `merge` the second component is the mutated donor. -/
def applyCtxOp (ctx : BatchesContext) : CtxOp → BatchesContext × Option BatchesContext
  | .insOp b => ((ctx.insert b).1, none)
  | .remOp b => ((ctx.removeBatch b).1, none)
  | .mergeOp fr => ((ctx.merge fr).1, some (ctx.merge fr).2)

/-- The image of a `mst_pending_` entry in `mst_expirations_`: its timestamp
mapped to the resident batch (identified by the entry's reduced-hash key). -/
def fExp (p : Nat × PendingEntry) : Nat × Nat := (p.2.timestamp, p.1)

/-- Inductive invariant of the pending store: `mst_expirations_` is exactly
the image of `mst_pending_` under `fExp`, the reduced-hash keys are distinct
and the stored timestamps are distinct. -/
def MSTInv (st : MSTState) : Prop :=
  st.mst_expirations = st.mst_pending.map fExp
    ∧ (st.mst_pending.map fun p => p.1).Nodup
    ∧ (st.mst_pending.map fun p => p.2.timestamp).Nodup

/-- The batch the cache currently holds for a reduced hash: the pending
entry's batch if one exists, otherwise the first available batch with that
reduced hash. -/
def residentWithHash (c : BatchesCache) (rh : Nat) : Option Batch :=
  match c.mst_state_.mst_pending.find? (fun p => p.1 == rh) with
  | some p => some p.2.batch
  | none => c.batches_cache_.batches_.find? (fun b => b.reducedHash == rh)

/-- The per-transaction signature sets of a batch, in transaction order. -/
def sigSets (b : Batch) : List (Finset Signature) :=
  b.transactions.map fun tx => tx.signatures.toFinset

/-- C1: the claim says `upsert` assigns the smallest free timestamp
`ts ≥ ts0` with `ts0 = min created_time` over the batch (here 10, so the
assigned timestamp would be 10).  The code's `oldestTimestamp` starts its
min-fold at `0ull`, so it returns 0 for every batch and the probe assigns
timestamp 0: evaluating the code at the failing input shows the pending
entry created for a batch whose only transaction has created time 10 gets
timestamp 0. -/
theorem c1_probe_starts_at_zero :
    oldestTimestamp batchPartA = 0 ∧
    (batchPartA.transactions.map fun tx => tx.createdTime) = [10] ∧
    ((emptyCache.insertB batchPartA).1.mst_state_.mst_pending.map
      fun p => p.2.timestamp) = [0] := by
  decide

/-- C2: the claim says the direct-complete insert emits `Prepared` carrying
the inserted batch.  In the source (line 183) the notification payload is
`it_batch->second.batch`, a name that is not in scope in `BatchesCache::insert`
(modelled by `none`); evaluating the direct insert of the fully signed batch
shows the emitted payload is not the inserted batch. -/
theorem c2_direct_insert_payload :
    (emptyCache.insertB batchFull).2.1 = [Event.preparedBatches none] ∧
    Event.preparedBatches none ≠ Event.preparedBatches (some batchFull) := by
  decide

/-- C3: evaluating the code at the failing input.  Insert the fully signed
batch, claim it for a proposal, then rebuild the same fully signed batch in
the pending store from the two half-signed donors: the promotion inserts it
into `available` while the identical batch sits in `in_flight`.  After
`remove({100})` the in-flight set still holds that batch, whose transaction
hash 100 is in the removed set, and `used_batches_cache_.getTxsCount()` is 1,
so the code's own `assert(used_batches_cache_.getTxsCount() == 0ull)`
(line 196) fails; the claim says every store is purged of hash 100 and
`in_flight` is empty. -/
theorem c3_remove_leaves_inflight :
    (runOps emptyCache [CacheOp.ins batchFull, CacheOp.claim [batchFull],
        CacheOp.ins batchPartA, CacheOp.ins batchPartB,
        CacheOp.rem [100]]).used_batches_cache_.batches_ = [batchFull] ∧
    (runOps emptyCache [CacheOp.ins batchFull, CacheOp.claim [batchFull],
        CacheOp.ins batchPartA, CacheOp.ins batchPartB,
        CacheOp.rem [100]]).used_batches_cache_.tx_count_ = 1 ∧
    needRemove [100] batchFull = true := by
  decide

/-- C9: the claim (and the spec) say the lock order is always `L_pending`
before `L_cache` and that no operation acquires `L_pending` while holding
`L_cache`.  In the source, `BatchesCache::insert` takes `batches_cache_cs_`
first (line 176) and only then takes the MST lock, in both branches; the
incomplete-promotion path moreover re-locks the non-recursive
`batches_cache_cs_` (line 130) while it is already held from line 176. -/
theorem c9_lock_order_violated :
    noPendingUnderCache (insertLockTrace true false) 0 = false ∧
    noPendingUnderCache (insertLockTrace false false) 0 = false ∧
    noPendingUnderCache (insertLockTrace false true) 0 = false ∧
    noRecursiveCacheLock (insertLockTrace false true) 0 = false := by
  decide

theorem count_nil : BatchesContext.count [] = 0 := rfl

theorem count_cons (b : Batch) (l : List Batch) :
    BatchesContext.count (b :: l) = b.transactions.length + BatchesContext.count l := by
  simp [BatchesContext.count]

theorem count_append (l₁ l₂ : List Batch) :
    BatchesContext.count (l₁ ++ l₂) = BatchesContext.count l₁ + BatchesContext.count l₂ := by
  simp [BatchesContext.count]

theorem count_perm {l₁ l₂ : List Batch} (h : l₁.Perm l₂) :
    BatchesContext.count l₁ = BatchesContext.count l₂ := by
  unfold BatchesContext.count
  exact (h.map fun b => b.transactions.length).sum_eq

theorem count_erase {b : Batch} {l : List Batch} (h : b ∈ l) :
    BatchesContext.count l
      = b.transactions.length + BatchesContext.count (l.erase b) := by
  have hp := List.perm_cons_erase h
  calc BatchesContext.count l = BatchesContext.count (b :: l.erase b) := count_perm hp
    _ = b.transactions.length + BatchesContext.count (l.erase b) := count_cons _ _

theorem insert_wf {ctx : BatchesContext} (h : ctxWF ctx) (b : Batch) :
    ctxWF (ctx.insert b).1 := by
  unfold BatchesContext.insert
  by_cases hb : b ∈ ctx.batches_
  · rw [if_pos hb]
    exact h
  · rw [if_neg hb]
    show BatchesContext.count (ctx.batches_ ++ [b])
        = ctx.tx_count_ + b.transactions.length
    rw [count_append, count_cons, count_nil]
    omega

theorem removeBatch_wf {ctx : BatchesContext} (h : ctxWF ctx) (b : Batch) :
    ctxWF (ctx.removeBatch b).1 := by
  unfold BatchesContext.removeBatch
  by_cases hb : b ∈ ctx.batches_
  · rw [if_pos hb]
    have he := count_erase hb
    show BatchesContext.count (ctx.batches_.erase b)
        = ctx.tx_count_ - b.transactions.length
    omega
  · rw [if_neg hb]
    exact h

theorem mergeLoop_wf (todo : List Batch) :
    ∀ (self : BatchesContext) (fc k : Nat), ctxWF self →
      fc = BatchesContext.count todo + k →
      ctxWF (mergeLoop self todo fc).1 ∧
      (mergeLoop self todo fc).2.2
        = BatchesContext.count (mergeLoop self todo fc).2.1 + k := by
  induction todo with
  | nil =>
    intro self fc k hs hfc
    exact ⟨hs, hfc⟩
  | cons b rest ih =>
    intro self fc k hs hfc
    rw [count_cons] at hfc
    simp only [mergeLoop]
    by_cases hb : b ∈ self.batches_
    · rw [if_pos hb]
      have ihr := ih self fc (k + b.transactions.length) hs (by omega)
      refine ⟨ihr.1, ?_⟩
      show (mergeLoop self rest fc).2.2
          = BatchesContext.count (b :: (mergeLoop self rest fc).2.1) + k
      rw [count_cons]
      omega
    · rw [if_neg hb]
      apply ih
      · show BatchesContext.count (self.batches_ ++ [b])
            = self.tx_count_ + b.transactions.length
        rw [count_append, count_cons, count_nil]
        omega
      · omega

theorem merge_wf {self from_ : BatchesContext} (h1 : ctxWF self) (h2 : ctxWF from_) :
    ctxWF (self.merge from_).1 ∧ ctxWF (self.merge from_).2 := by
  have hm := mergeLoop_wf from_.batches_ self from_.tx_count_ 0 h1 (by omega)
  constructor
  · show ctxWF (mergeLoop self from_.batches_ from_.tx_count_).1
    exact hm.1
  · show BatchesContext.count (mergeLoop self from_.batches_ from_.tx_count_).2.1
        = (mergeLoop self from_.batches_ from_.tx_count_).2.2
    omega

/-- C4: after every mutation of a `BatchesContext` (insert, removeBatch,
merge) the cached `tx_count_` equals the sum of `|b.transactions|` over the
member batches, provided it did before (and, for merge, also in the donor);
this applies to both instances of `BatchesContext` in the cache,
`batches_cache_` (available) and `used_batches_cache_` (in-flight). -/
theorem c4_txs_count_invariant (ctx : BatchesContext) (op : CtxOp) (h : ctxWF ctx)
    (hfr : ∀ fr, op = CtxOp.mergeOp fr → ctxWF fr) :
    ctxWF (applyCtxOp ctx op).1 ∧
    ∀ fr2, (applyCtxOp ctx op).2 = some fr2 → ctxWF fr2 := by
  cases op with
  | insOp b => exact ⟨insert_wf h b, by intro fr2 hh; cases hh⟩
  | remOp b => exact ⟨removeBatch_wf h b, by intro fr2 hh; cases hh⟩
  | mergeOp fr =>
    have hw := merge_wf h (hfr fr rfl)
    exact ⟨hw.1, by intro fr2 hh; cases hh; exact hw.2⟩

/-- Witness for C4 at a concrete input: merging the in-flight set
`{batchFull}` into the available set `{batchPartA}` keeps both cached counts
equal to the recomputed sums. -/
theorem c4_witness :
    ctxWF { batches_ := [batchPartA], tx_count_ := 1 } ∧
    ctxWF (applyCtxOp { batches_ := [batchPartA], tx_count_ := 1 }
      (CtxOp.mergeOp { batches_ := [batchFull], tx_count_ := 1 })).1 := by
  refine ⟨by decide, ?_⟩
  exact (c4_txs_count_invariant { batches_ := [batchPartA], tx_count_ := 1 }
    (CtxOp.mergeOp { batches_ := [batchFull], tx_count_ := 1 }) (by decide)
    (fun fr hh => by cases hh; decide)).1

/-- C7 counterexample: the claim quantifies over every collection `B`.  Take
`B = [batchFull]` with `batchFull` not in the available set (the cache is
empty): `claim_for_proposal(B)` still inserts it into `in_flight`, and
`remove(∅)` then merges it into `available`, so the available membership and
txs_count after the sequence differ from those before it. -/
theorem c7_cex_nonmember_claim :
    emptyCache.batches_cache_.batches_ = [] ∧
    emptyCache.batches_cache_.tx_count_ = 0 ∧
    ((emptyCache.processReceivedProposal [batchFull]).removeH
        []).batches_cache_.batches_ = [batchFull] ∧
    ((emptyCache.processReceivedProposal [batchFull]).removeH
        []).batches_cache_.tx_count_ = 1 := by
  decide

/-- C8 counterexample: inserting the same fully signed batch twice returns
the same count from both calls, but a `kOnMstPreparedBatches` notification
is emitted by each call, so `Prepared` is not emitted exactly once. -/
theorem c8_cex_prepared_twice :
    (emptyCache.insertB batchFull).2.2
        = ((emptyCache.insertB batchFull).1.insertB batchFull).2.2 ∧
    ¬ countPrepared ((emptyCache.insertB batchFull).2.1
        ++ ((emptyCache.insertB batchFull).1.insertB batchFull).2.1) = 1 := by
  decide

/-- C10 counterexample: in the reachable state built by claiming the fully
signed batch and then re-completing the same batch through the pending store,
the batch is in `available` while its duplicate is in `in_flight`.  Claiming
it again (it is currently in the available set) drops the combined
`txs_count()` from 2 to 1: `removeBatch` succeeds on `available` while the
`in_flight` insert is deduplicated. -/
theorem c10_cex_claim_changes_total :
    batchFull ∈ (runOps emptyCache [CacheOp.ins batchFull, CacheOp.claim [batchFull],
        CacheOp.ins batchPartA, CacheOp.ins batchPartB]).batches_cache_.batches_ ∧
    (runOps emptyCache [CacheOp.ins batchFull, CacheOp.claim [batchFull],
        CacheOp.ins batchPartA, CacheOp.ins batchPartB]).txsCount = 2 ∧
    ((runOps emptyCache [CacheOp.ins batchFull, CacheOp.claim [batchFull],
        CacheOp.ins batchPartA, CacheOp.ins batchPartB]).processReceivedProposal
        [batchFull]).txsCount = 1 := by
  decide

theorem length_filter_mono {α : Type _} {p q : α → Bool} (l : List α)
    (h : ∀ a ∈ l, p a = true → q a = true) :
    (l.filter p).length ≤ (l.filter q).length := by
  induction l with
  | nil => simp
  | cons a rest ih =>
    have hrest : ∀ x ∈ rest, p x = true → q x = true :=
      fun x hx => h x (List.mem_cons_of_mem _ hx)
    rw [List.filter_cons, List.filter_cons]
    by_cases hp : p a = true
    · rw [if_pos hp, if_pos (h a (List.mem_cons_self _ _) hp)]
      simpa using ih hrest
    · rw [if_neg hp]
      by_cases hq : q a = true
      · rw [if_pos hq]
        have := ih hrest
        simp only [List.length_cons]
        omega
      · rw [if_neg hq]
        exact ih hrest

theorem length_filter_probe_lt {keys : List Nat} {ts : Nat} (h : ts ∈ keys) :
    (keys.filter fun k => decide (ts + 1 ≤ k)).length
      < (keys.filter fun k => decide (ts ≤ k)).length := by
  induction keys with
  | nil => cases h
  | cons c rest ih =>
    rcases List.mem_cons.mp h with hc | hmem
    · rw [List.filter_cons, List.filter_cons, if_neg (by
        simp only [decide_eq_true_eq]
        omega), if_pos (by
        simp only [decide_eq_true_eq]
        omega)]
      have hm := length_filter_mono rest (p := fun k => decide (ts + 1 ≤ k))
        (q := fun k => decide (ts ≤ k)) (by
          intro a _ hp
          simp only [decide_eq_true_eq] at hp ⊢
          omega)
      simp only [List.length_cons]
      omega
    · rw [List.filter_cons, List.filter_cons]
      by_cases h1 : ts + 1 ≤ c
      · rw [if_pos (by
          simp only [decide_eq_true_eq]
          omega), if_pos (by
          simp only [decide_eq_true_eq]
          omega)]
        simpa using ih hmem
      · by_cases h0 : ts ≤ c
        · rw [if_neg (by
            simp only [decide_eq_true_eq]
            omega), if_pos (by
            simp only [decide_eq_true_eq]
            omega)]
          have := ih hmem
          simp only [List.length_cons]
          omega
        · rw [if_neg (by
            simp only [decide_eq_true_eq]
            omega), if_neg (by
            simp only [decide_eq_true_eq]
            omega)]
          exact ih hmem

theorem probeFrom_not_mem (keys : List Nat) :
    ∀ (fuel ts : Nat), (keys.filter fun k => decide (ts ≤ k)).length < fuel →
      probeFrom keys ts fuel ∉ keys := by
  intro fuel
  induction fuel with
  | zero =>
    intro ts h
    exact absurd h (Nat.not_lt_zero _)
  | succ n ih =>
    intro ts h
    simp only [probeFrom]
    by_cases hts : ts ∈ keys
    · rw [if_pos hts]
      exact ih (ts + 1) (by
        have := length_filter_probe_lt hts
        omega)
    · rw [if_neg hts]
      exact hts

/-- The linear probe of `insertMSTCache` (line 122) terminates on a timestamp
that is not yet a key of `mst_expirations_`. -/
theorem probeTs_not_mem (keys : List Nat) (ts : Nat) : probeTs keys ts ∉ keys := by
  apply probeFrom_not_mem
  have := List.length_filter_le (fun k => decide (ts ≤ k)) keys
  omega

theorem eraseP_congr {α : Type _} {p q : α → Bool} :
    ∀ {l : List α}, (∀ a ∈ l, p a = q a) → l.eraseP p = l.eraseP q
  | [], _ => rfl
  | a :: rest, h => by
    rw [List.eraseP_cons, List.eraseP_cons, h a (List.mem_cons_self _ _),
      eraseP_congr (fun x hx => h x (List.mem_cons_of_mem _ hx))]

/-- In a pending list with distinct keys and distinct timestamps, erasing by
the timestamp of a member entry coincides with erasing by its key. -/
theorem pending_pred_eq {P : List (Nat × PendingEntry)}
    (hk : (P.map fun p => p.1).Nodup) (ht : (P.map fun p => p.2.timestamp).Nodup)
    {entry : Nat × PendingEntry} (hmem : entry ∈ P) {rh : Nat} (hkey : entry.1 = rh) :
    ∀ p ∈ P, (p.2.timestamp == entry.2.timestamp) = (p.1 == rh) := by
  intro p hp
  by_cases hts : p.2.timestamp = entry.2.timestamp
  · have hpe : p = entry := List.inj_on_of_nodup_map ht hp hmem hts
    rw [hpe, hkey]
    simp
  · have hne : p.1 ≠ rh := by
      intro hkeq
      have hpe : p = entry :=
        List.inj_on_of_nodup_map hk hp hmem (by rw [hkeq, hkey])
      exact hts (by rw [hpe])
    rw [beq_eq_false_iff_ne.mpr hts, beq_eq_false_iff_ne.mpr hne]

theorem erase_pair_eq {P : List (Nat × PendingEntry)}
    (hk : (P.map fun p => p.1).Nodup) (ht : (P.map fun p => p.2.timestamp).Nodup)
    {entry : Nat × PendingEntry} (hmem : entry ∈ P) {rh : Nat} (hkey : entry.1 = rh) :
    (P.map fExp).eraseP (fun e => e.1 == entry.2.timestamp)
      = (P.eraseP (fun p => p.1 == rh)).map fExp := by
  rw [List.eraseP_map]
  congr 1
  apply eraseP_congr
  intro p hp
  exact pending_pred_eq hk ht hmem hkey p hp

theorem insertMSTCache_inv {c : BatchesCache} (b : Batch) (h : MSTInv c.mst_state_) :
    MSTInv (c.insertMSTCache b).1.mst_state_ := by
  obtain ⟨he, hk, ht⟩ := h
  unfold BatchesCache.insertMSTCache
  cases hf : c.mst_state_.mst_pending.find? (fun p => p.1 == b.reducedHash) with
  | none =>
    have hnone := List.find?_eq_none.mp hf
    dsimp only
    refine ⟨?_, ?_, ?_⟩
    · rw [List.map_append, ← he]
      rfl
    · rw [List.map_append, List.nodup_append]
      refine ⟨hk, List.nodup_singleton _, ?_⟩
      intro a ha hb2
      obtain ⟨p, hp, hpa⟩ := List.mem_map.mp ha
      have := hnone p hp
      simp only [beq_iff_eq] at this
      rw [List.mem_singleton.mp hb2] at hpa
      exact this hpa
    · have hmapeq : c.mst_state_.mst_expirations.map (fun e => e.1)
          = c.mst_state_.mst_pending.map (fun p => p.2.timestamp) := by
        rw [he, List.map_map]
        rfl
      rw [List.map_append, List.nodup_append]
      refine ⟨ht, List.nodup_singleton _, ?_⟩
      intro a ha hb2
      rw [List.mem_singleton.mp hb2] at ha
      rw [← hmapeq] at ha
      exact probeTs_not_mem _ _ ha
  | some entry =>
    have hmem := List.mem_of_find?_eq_some hf
    have hkey : entry.1 = b.reducedHash := by
      have h2 := List.find?_some hf
      simp only [beq_iff_eq] at h2
      exact h2
    dsimp only
    by_cases hr : (mergeSignaturesInBatch entry.2.batch b).2 = true
    · rw [if_pos hr]
      by_cases hc : (mergeSignaturesInBatch entry.2.batch b).1.hasAllSignatures = true
      · rw [if_pos hc]
        refine ⟨?_, ?_, ?_⟩
        · rw [he]
          exact erase_pair_eq hk ht hmem hkey
        · exact List.Nodup.sublist (List.Sublist.map _ (List.eraseP_sublist _)) hk
        · exact List.Nodup.sublist (List.Sublist.map _ (List.eraseP_sublist _)) ht
      · rw [if_neg hc]
        refine ⟨?_, ?_, ?_⟩
        · rw [he, List.map_map]
          apply List.map_congr_left
          intro p hp
          by_cases hpk : (p.1 == b.reducedHash) = true
          · simp [Function.comp, fExp, hpk]
          · simp [Function.comp, fExp, hpk]
        · rw [List.map_map]
          have heq : c.mst_state_.mst_pending.map
                ((fun p => p.1) ∘ fun p =>
                  if p.1 == b.reducedHash then
                    (p.1, ⟨(mergeSignaturesInBatch entry.2.batch b).1, p.2.timestamp⟩)
                  else p)
              = c.mst_state_.mst_pending.map (fun p => p.1) := by
            apply List.map_congr_left
            intro p hp
            by_cases hpk : (p.1 == b.reducedHash) = true
            · simp [Function.comp, hpk]
            · simp [Function.comp, hpk]
          rw [heq]
          exact hk
        · rw [List.map_map]
          have heq : c.mst_state_.mst_pending.map
                ((fun p => p.2.timestamp) ∘ fun p =>
                  if p.1 == b.reducedHash then
                    (p.1, ⟨(mergeSignaturesInBatch entry.2.batch b).1, p.2.timestamp⟩)
                  else p)
              = c.mst_state_.mst_pending.map (fun p => p.2.timestamp) := by
            apply List.map_congr_left
            intro p hp
            by_cases hpk : (p.1 == b.reducedHash) = true
            · simp [Function.comp, hpk]
            · simp [Function.comp, hpk]
          rw [heq]
          exact ht
    · rw [if_neg hr]
      exact ⟨he, hk, ht⟩

theorem removeMSTCacheB_inv {c : BatchesCache} (b : Batch) (h : MSTInv c.mst_state_) :
    MSTInv (c.removeMSTCacheB b).mst_state_ := by
  obtain ⟨he, hk, ht⟩ := h
  unfold BatchesCache.removeMSTCacheB
  cases hf : c.mst_state_.mst_pending.find? (fun p => p.1 == b.reducedHash) with
  | none => exact ⟨he, hk, ht⟩
  | some entry =>
    have hmem := List.mem_of_find?_eq_some hf
    have hkey : entry.1 = b.reducedHash := by
      have h2 := List.find?_some hf
      simp only [beq_iff_eq] at h2
      exact h2
    dsimp only
    refine ⟨?_, ?_, ?_⟩
    · rw [he]
      exact erase_pair_eq hk ht hmem hkey
    · exact List.Nodup.sublist (List.Sublist.map _ (List.eraseP_sublist _)) hk
    · exact List.Nodup.sublist (List.Sublist.map _ (List.eraseP_sublist _)) ht

theorem pruneLoop_spec (hashes : List Nat) :
    ∀ (todo : List (Nat × PendingEntry)) (pre : List (Nat × Nat)),
      ((pre ++ todo.map fExp).map fun e => e.1).Nodup →
      pruneLoop hashes todo (pre ++ todo.map fExp)
        = (todo.filter (fun p => !needRemove hashes p.2.batch),
           pre ++ (todo.filter (fun p => !needRemove hashes p.2.batch)).map fExp) := by
  intro todo
  induction todo with
  | nil =>
    intro pre hnd
    simp [pruneLoop]
  | cons p rest ih =>
    intro pre hnd
    rw [List.map_cons] at hnd
    have hdisj : ∀ x ∈ pre, ¬(x.1 == p.2.timestamp) = true := by
      rw [List.map_append, List.nodup_append] at hnd
      intro x hx hbx
      refine hnd.2.2 (List.mem_map.mpr ⟨x, hx, rfl⟩) ?_
      rw [List.map_cons]
      rw [beq_iff_eq] at hbx
      rw [hbx]
      exact List.mem_cons_self _ _
    simp only [List.map_cons, pruneLoop]
    by_cases hrem : needRemove hashes p.2.batch = true
    · rw [if_pos hrem]
      have herase : (pre ++ (fExp p :: rest.map fExp)).eraseP
            (fun e => e.1 == p.2.timestamp) = pre ++ rest.map fExp := by
        rw [List.eraseP_append_right _ hdisj]
        have hpos : ((fun e => (e.1 == p.2.timestamp)) (fExp p)) = true := by
          simp [fExp]
        rw [@List.eraseP_cons_of_pos _ (fExp p) (rest.map fExp)
          (fun e => e.1 == p.2.timestamp) hpos]
      rw [herase]
      have hnd2 : ((pre ++ rest.map fExp).map fun e => e.1).Nodup := by
        refine List.Nodup.sublist (List.Sublist.map _ ?_) hnd
        exact List.Sublist.append_left (List.sublist_cons_self _ _) pre
      rw [ih pre hnd2, List.filter_cons, if_neg (by
        rw [hrem]
        simp)]
    · rw [if_neg hrem]
      have hnd3 : (((pre ++ [fExp p]) ++ rest.map fExp).map fun e => e.1).Nodup := by
        rw [List.append_assoc, List.singleton_append]
        exact hnd
      have := ih (pre ++ [fExp p]) (by
        rw [← List.append_cons] at hnd3
        rw [← List.append_cons]
        exact hnd3)
      rw [List.append_cons pre (fExp p), this, List.filter_cons, if_pos (by
        rw [Bool.not_eq_true] at hrem
        rw [hrem]
        rfl)]
      rw [List.map_cons, ← List.append_cons]

theorem removeMSTCacheH_inv {c : BatchesCache} (hashes : List Nat)
    (h : MSTInv c.mst_state_) : MSTInv (c.removeMSTCacheH hashes).mst_state_ := by
  obtain ⟨he, hk, ht⟩ := h
  have hnd : ((([] : List (Nat × Nat)) ++ c.mst_state_.mst_pending.map fExp).map
      fun e => e.1).Nodup := by
    rw [List.nil_append, List.map_map]
    exact ht
  have hp := pruneLoop_spec hashes c.mst_state_.mst_pending [] hnd
  rw [List.nil_append] at hp
  unfold BatchesCache.removeMSTCacheH
  rw [he, hp]
  refine ⟨?_, ?_, ?_⟩
  · rw [List.nil_append]
  · exact List.Nodup.sublist (List.Sublist.map _ (List.filter_sublist _)) hk
  · exact List.Nodup.sublist (List.Sublist.map _ (List.filter_sublist _)) ht

theorem claim_mst_fixed (bs : List Batch) :
    ∀ c : BatchesCache, (c.processReceivedProposal bs).mst_state_ = c.mst_state_ := by
  induction bs with
  | nil =>
    intro c
    rfl
  | cons b rest ih =>
    intro c
    exact ih _

theorem applyOp_MSTInv {c : BatchesCache} (op : CacheOp) (h : MSTInv c.mst_state_) :
    MSTInv (applyOp c op).mst_state_ := by
  cases op with
  | ins b =>
    show MSTInv (c.insertB b).1.mst_state_
    unfold BatchesCache.insertB
    by_cases hb : b.hasAllSignatures = true
    · rw [if_pos hb]
      by_cases hm : b ∈ c.used_batches_cache_.batches_
      · rw [if_pos hm]
        exact removeMSTCacheB_inv b h
      · rw [if_neg hm]
        exact removeMSTCacheB_inv b h
    · rw [if_neg hb]
      exact insertMSTCache_inv b h
  | rem hs =>
    show MSTInv (c.removeH hs).mst_state_
    unfold BatchesCache.removeH
    exact removeMSTCacheH_inv hs h
  | claim bs =>
    show MSTInv (c.processReceivedProposal bs).mst_state_
    rw [claim_mst_fixed bs c]
    exact h

theorem reachable_MSTInv {c : BatchesCache} (h : Reachable c) : MSTInv c.mst_state_ := by
  induction h with
  | empty => exact ⟨rfl, List.nodup_nil, List.nodup_nil⟩
  | step op _ ih => exact applyOp_MSTInv op ih

/-- C5: in every state of the pending store reachable through the public
interface, `|mst_pending_| = |mst_expirations_|`, the timestamps that key
`mst_expirations_` are distinct, and every pending entry appears in
`mst_expirations_` under exactly the timestamp stored in its `by_hash`
entry. -/
theorem c5_pending_store_invariant {c : BatchesCache} (h : Reachable c) :
    c.mst_state_.mst_pending.length = c.mst_state_.mst_expirations.length ∧
    (c.mst_state_.mst_expirations.map fun e => e.1).Nodup ∧
    ∀ p ∈ c.mst_state_.mst_pending,
      (p.2.timestamp, p.1) ∈ c.mst_state_.mst_expirations := by
  obtain ⟨he, hk, ht⟩ := reachable_MSTInv h
  refine ⟨?_, ?_, ?_⟩
  · rw [he, List.length_map]
  · rw [he, List.map_map]
    exact ht
  · intro p hp
    rw [he]
    exact List.mem_map.mpr ⟨p, hp, rfl⟩

/-- Witness for C5 at a concrete reachable state: the cache after inserting
the half-signed batch, whose pending store holds one entry. -/
theorem c5_witness :
    (runOps emptyCache [CacheOp.ins batchPartA]).mst_state_.mst_pending.length
      = (runOps emptyCache [CacheOp.ins batchPartA]).mst_state_.mst_expirations.length ∧
    ((runOps emptyCache [CacheOp.ins batchPartA]).mst_state_.mst_expirations.map
      fun e => e.1).Nodup ∧
    ∀ p ∈ (runOps emptyCache [CacheOp.ins batchPartA]).mst_state_.mst_pending,
      (p.2.timestamp, p.1)
        ∈ (runOps emptyCache [CacheOp.ins batchPartA]).mst_state_.mst_expirations :=
  c5_pending_store_invariant (Reachable.step (CacheOp.ins batchPartA) Reachable.empty)

theorem addSignature_of_false {tx : Transaction} {s : Signature}
    (h : (tx.addSignature s).2 = false) : (tx.addSignature s).1 = tx := by
  unfold Transaction.addSignature at *
  by_cases hs : s ∈ tx.signatures
  · rw [if_pos hs]
  · rw [if_neg hs] at h
    cases h

theorem addSignatures_toFinset :
    ∀ (ss : List Signature) (tx : Transaction),
      (tx.addSignatures ss).1.signatures.toFinset
        = tx.signatures.toFinset ∪ ss.toFinset := by
  intro ss
  induction ss with
  | nil =>
    intro tx
    simp [Transaction.addSignatures]
  | cons s rest ih =>
    intro tx
    show ((tx.addSignature s).1.addSignatures rest).1.signatures.toFinset = _
    rw [ih]
    unfold Transaction.addSignature
    by_cases hs : s ∈ tx.signatures
    · rw [if_pos hs]
      ext a
      simp only [Finset.mem_union, List.mem_toFinset, List.toFinset_cons,
        Finset.mem_insert]
      constructor
      · intro h3
        rcases h3 with h3 | h3
        · exact Or.inl h3
        · exact Or.inr (Or.inr h3)
      · intro h3
        rcases h3 with h3 | h3 | h3
        · exact Or.inl h3
        · exact Or.inl (h3 ▸ hs)
        · exact Or.inr h3
    · rw [if_neg hs]
      show (tx.signatures ++ [s]).toFinset ∪ rest.toFinset = _
      ext a
      simp only [Finset.mem_union, List.mem_toFinset, List.toFinset_cons,
        Finset.mem_insert, List.mem_append, List.mem_singleton]
      tauto

theorem addSignatures_of_false :
    ∀ (ss : List Signature) (tx : Transaction), (tx.addSignatures ss).2 = false →
      (tx.addSignatures ss).1 = tx := by
  intro ss
  induction ss with
  | nil =>
    intro tx _
    rfl
  | cons s rest ih =>
    intro tx h
    have h2 : ((tx.addSignature s).2
        || ((tx.addSignature s).1.addSignatures rest).2) = false := h
    obtain ⟨ha, hb⟩ := Bool.or_eq_false_iff.mp h2
    show ((tx.addSignature s).1.addSignatures rest).1 = tx
    rw [addSignature_of_false ha] at hb ⊢
    exact ih tx hb

theorem mergeTxLists_of_false :
    ∀ (ts ds : List Transaction), (mergeTxLists ts ds).2 = false →
      (mergeTxLists ts ds).1 = ts := by
  intro ts
  induction ts with
  | nil =>
    intro ds _
    cases ds <;> rfl
  | cons t ts2 ih =>
    intro ds h
    cases ds with
    | nil => rfl
    | cons d ds2 =>
      have h2 : ((t.addSignatures d.signatures).2 || (mergeTxLists ts2 ds2).2)
          = false := h
      obtain ⟨ha, hb⟩ := Bool.or_eq_false_iff.mp h2
      show (t.addSignatures d.signatures).1 :: (mergeTxLists ts2 ds2).1 = t :: ts2
      rw [addSignatures_of_false d.signatures t ha, ih ds2 hb]

theorem mergeTxLists_sigSets :
    ∀ (ts ds : List Transaction), ts.length = ds.length →
      (mergeTxLists ts ds).1.map (fun tx => tx.signatures.toFinset)
        = List.zipWith (fun a b => a ∪ b)
            (ts.map fun tx => tx.signatures.toFinset)
            (ds.map fun tx => tx.signatures.toFinset) := by
  intro ts
  induction ts with
  | nil =>
    intro ds h
    cases ds with
    | nil => rfl
    | cons d ds2 => cases h
  | cons t ts2 ih =>
    intro ds h
    cases ds with
    | nil => cases h
    | cons d ds2 =>
      show ((t.addSignatures d.signatures).1 :: (mergeTxLists ts2 ds2).1).map _ = _
      rw [List.map_cons, List.map_cons, List.map_cons, List.zipWith_cons_cons,
        addSignatures_toFinset, ih ds2 (by simpa using h)]

theorem zipWith_union_comm :
    ∀ (xs ys : List (Finset Signature)),
      List.zipWith (fun a b => a ∪ b) xs ys
        = List.zipWith (fun a b => a ∪ b) ys xs := by
  intro xs
  induction xs with
  | nil =>
    intro ys
    cases ys <;> rfl
  | cons x xs2 ih =>
    intro ys
    cases ys with
    | nil => rfl
    | cons y ys2 =>
      rw [List.zipWith_cons_cons, List.zipWith_cons_cons, Finset.union_comm, ih]

/-- Inserting two incomplete batches with the same reduced hash into the empty
cache leaves exactly the pairwise signature merge of the two as the resident
batch for that hash (pending if still incomplete, available if the merge
completed it). -/
theorem twoIncompleteInserts (P Q : Batch) (hrh : P.reducedHash = Q.reducedHash)
    (hP : P.hasAllSignatures = false) (hQ : Q.hasAllSignatures = false) :
    residentWithHash ((emptyCache.insertB P).1.insertB Q).1 P.reducedHash
      = some (mergeSignaturesInBatch P Q).1 := by
  have hPn : ¬ P.hasAllSignatures = true := by
    rw [hP]
    exact Bool.false_ne_true
  have hQn : ¬ Q.hasAllSignatures = true := by
    rw [hQ]
    exact Bool.false_ne_true
  have e1 : ((emptyCache.insertB P).1.insertB Q).1
      = (({ emptyCache with mst_state_ :=
            { mst_pending := [(P.reducedHash, ⟨P, oldestTimestamp P⟩)],
              mst_expirations := [(oldestTimestamp P, P.reducedHash)] } } :
          BatchesCache).insertMSTCache Q).1 := by
    unfold BatchesCache.insertB
    rw [if_neg hPn, if_neg hQn]
    rfl
  rw [e1]
  unfold BatchesCache.insertMSTCache
  rw [show (List.find? (fun p => p.1 == Q.reducedHash)
        [(P.reducedHash, (⟨P, oldestTimestamp P⟩ : PendingEntry))])
      = some (P.reducedHash, ⟨P, oldestTimestamp P⟩) from
    List.find?_cons_of_pos _ (beq_iff_eq.mpr hrh)]
  dsimp only
  by_cases hins : (mergeSignaturesInBatch P Q).2 = true
  · rw [if_pos hins]
    by_cases hcomp : (mergeSignaturesInBatch P Q).1.hasAllSignatures = true
    · rw [if_pos hcomp]
      unfold residentWithHash
      rw [show (List.eraseP (fun p => p.1 == Q.reducedHash)
            [(P.reducedHash, (⟨P, oldestTimestamp P⟩ : PendingEntry))]) = [] from by
        rw [@List.eraseP_cons_of_pos _
          (P.reducedHash, (⟨P, oldestTimestamp P⟩ : PendingEntry)) []
          (fun p => p.1 == Q.reducedHash) (beq_iff_eq.mpr hrh)]]
      dsimp only [List.find?]
      rw [show ((mergeSignaturesInBatch P Q).1.reducedHash == P.reducedHash) = true
        from beq_iff_eq.mpr rfl]
    · rw [if_neg hcomp]
      unfold residentWithHash
      rw [show (List.map (fun p =>
            if p.1 == Q.reducedHash then
              (p.1, (⟨(mergeSignaturesInBatch P Q).1, p.2.timestamp⟩ : PendingEntry))
            else p)
            [(P.reducedHash, (⟨P, oldestTimestamp P⟩ : PendingEntry))])
          = [(P.reducedHash,
              ⟨(mergeSignaturesInBatch P Q).1, oldestTimestamp P⟩)] from by
        rw [List.map_cons, List.map_nil]
        rw [if_pos (beq_iff_eq.mpr hrh)]]
      rw [@List.find?_cons_of_pos _ (fun p => p.1 == P.reducedHash)
        (P.reducedHash, (⟨(mergeSignaturesInBatch P Q).1,
          oldestTimestamp P⟩ : PendingEntry)) [] (beq_iff_eq.mpr rfl)]
  · rw [if_neg hins]
    have hins' : (mergeSignaturesInBatch P Q).2 = false := by
      cases hv : (mergeSignaturesInBatch P Q).2 with
      | false => rfl
      | true => exact absurd hv hins
    have hm : (mergeSignaturesInBatch P Q).1 = P := by
      show ({ P with
          transactions := (mergeTxLists P.transactions Q.transactions).1 } : Batch) = P
      rw [mergeTxLists_of_false P.transactions Q.transactions hins']
    unfold residentWithHash
    rw [@List.find?_cons_of_pos _ (fun p => p.1 == P.reducedHash)
      (P.reducedHash, (⟨P, oldestTimestamp P⟩ : PendingEntry)) []
      (beq_iff_eq.mpr rfl)]
    rw [hm]

/-- C6: inserting two incomplete batches with the same reduced hash and equal
transaction counts, in either order, yields a resident batch whose
per-transaction signature sets are `sigs(P1) ∪ sigs(P2)`, identically for
both insertion orders. -/
theorem c6_signature_merge_commutes (P1 P2 : Batch)
    (hrh : P1.reducedHash = P2.reducedHash)
    (hlen : P1.transactions.length = P2.transactions.length)
    (h1 : P1.hasAllSignatures = false) (h2 : P2.hasAllSignatures = false) :
    residentWithHash ((emptyCache.insertB P1).1.insertB P2).1 P1.reducedHash
        = some (mergeSignaturesInBatch P1 P2).1 ∧
    residentWithHash ((emptyCache.insertB P2).1.insertB P1).1 P1.reducedHash
        = some (mergeSignaturesInBatch P2 P1).1 ∧
    sigSets (mergeSignaturesInBatch P1 P2).1
        = List.zipWith (fun a b => a ∪ b) (sigSets P1) (sigSets P2) ∧
    sigSets (mergeSignaturesInBatch P2 P1).1
        = sigSets (mergeSignaturesInBatch P1 P2).1 := by
  refine ⟨twoIncompleteInserts P1 P2 hrh h1 h2, ?_, ?_, ?_⟩
  · rw [hrh]
    exact twoIncompleteInserts P2 P1 hrh.symm h2 h1
  · show (mergeTxLists P1.transactions P2.transactions).1.map
        (fun tx => tx.signatures.toFinset)
      = List.zipWith (fun a b => a ∪ b)
          (P1.transactions.map fun tx => tx.signatures.toFinset)
          (P2.transactions.map fun tx => tx.signatures.toFinset)
    exact mergeTxLists_sigSets P1.transactions P2.transactions hlen
  · show (mergeTxLists P2.transactions P1.transactions).1.map
        (fun tx => tx.signatures.toFinset)
      = (mergeTxLists P1.transactions P2.transactions).1.map
        (fun tx => tx.signatures.toFinset)
    rw [mergeTxLists_sigSets P2.transactions P1.transactions hlen.symm,
      mergeTxLists_sigSets P1.transactions P2.transactions hlen,
      zipWith_union_comm]

/-- Witness for C6 at the two half-signed concrete batches. -/
theorem c6_witness :
    residentWithHash ((emptyCache.insertB batchPartA).1.insertB batchPartB).1
        batchPartA.reducedHash
      = some (mergeSignaturesInBatch batchPartA batchPartB).1 ∧
    residentWithHash ((emptyCache.insertB batchPartB).1.insertB batchPartA).1
        batchPartA.reducedHash
      = some (mergeSignaturesInBatch batchPartB batchPartA).1 ∧
    sigSets (mergeSignaturesInBatch batchPartA batchPartB).1
        = List.zipWith (fun a b => a ∪ b) (sigSets batchPartA) (sigSets batchPartB) ∧
    sigSets (mergeSignaturesInBatch batchPartB batchPartA).1
        = sigSets (mergeSignaturesInBatch batchPartA batchPartB).1 :=
  c6_signature_merge_commutes batchPartA batchPartB rfl rfl (by decide) (by decide)

theorem insert_of_mem {ctx : BatchesContext} {b : Batch} (h : b ∈ ctx.batches_) :
    (ctx.insert b).1 = ctx := by
  unfold BatchesContext.insert
  rw [if_pos h]

theorem insert_batches_of_not_mem {ctx : BatchesContext} {b : Batch}
    (h : b ∉ ctx.batches_) : (ctx.insert b).1.batches_ = ctx.batches_ ++ [b] := by
  unfold BatchesContext.insert
  rw [if_neg h]

theorem insert_mem (ctx : BatchesContext) (b : Batch) : b ∈ (ctx.insert b).1.batches_ := by
  by_cases h : b ∈ ctx.batches_
  · rw [insert_of_mem h]
    exact h
  · rw [insert_batches_of_not_mem h]
    simp

theorem removeBatch_of_not_mem {ctx : BatchesContext} {b : Batch}
    (h : b ∉ ctx.batches_) : (ctx.removeBatch b).1 = ctx := by
  unfold BatchesContext.removeBatch
  rw [if_neg h]

theorem removeBatch_batches_of_mem {ctx : BatchesContext} {b : Batch}
    (h : b ∈ ctx.batches_) : (ctx.removeBatch b).1.batches_ = ctx.batches_.erase b := by
  unfold BatchesContext.removeBatch
  rw [if_pos h]

theorem removeMSTCacheB_contexts (c : BatchesCache) (b : Batch) :
    (c.removeMSTCacheB b).batches_cache_ = c.batches_cache_ ∧
    (c.removeMSTCacheB b).used_batches_cache_ = c.used_batches_cache_ := by
  unfold BatchesCache.removeMSTCacheB
  cases hf : c.mst_state_.mst_pending.find? (fun p => p.1 == b.reducedHash) with
  | none => exact ⟨rfl, rfl⟩
  | some entry => exact ⟨rfl, rfl⟩

/-- One step of `processReceivedProposal` preserves the invariants that the
available and in-flight sets are duplicate-free, disjoint and consistently
counted, and permutes nothing out of their combined membership, provided the
claimed batch is somewhere in the two sets. -/
theorem claim_step_ctx {A U : BatchesContext} {b : Batch}
    (hA : A.batches_.Nodup) (hU : U.batches_.Nodup)
    (hD : ∀ x ∈ U.batches_, x ∉ A.batches_)
    (hwa : ctxWF A) (hwu : ctxWF U)
    (hb : b ∈ A.batches_ ∨ b ∈ U.batches_) :
    ((A.removeBatch b).1.batches_ ++ (U.insert b).1.batches_).Perm
        (A.batches_ ++ U.batches_) ∧
    (A.removeBatch b).1.batches_.Nodup ∧ (U.insert b).1.batches_.Nodup ∧
    (∀ x ∈ (U.insert b).1.batches_, x ∉ (A.removeBatch b).1.batches_) ∧
    ctxWF (A.removeBatch b).1 ∧ ctxWF (U.insert b).1 := by
  by_cases hbA : b ∈ A.batches_
  · have hbU : b ∉ U.batches_ := fun hx => hD b hx hbA
    rw [removeBatch_batches_of_mem hbA, insert_batches_of_not_mem hbU]
    refine ⟨?_, List.Nodup.erase b hA, ?_, ?_, removeBatch_wf hwa b, insert_wf hwu b⟩
    · rw [show A.batches_.erase b ++ (U.batches_ ++ [b])
          = (A.batches_.erase b ++ U.batches_) ++ [b] from
        (List.append_assoc _ _ _).symm]
      refine List.Perm.trans List.perm_append_comm ?_
      show ((b :: A.batches_.erase b) ++ U.batches_).Perm (A.batches_ ++ U.batches_)
      exact (List.perm_cons_erase hbA).symm.append_right _
    · rw [List.nodup_append]
      refine ⟨hU, List.nodup_singleton _, ?_⟩
      intro x hx hx2
      rw [List.mem_singleton.mp hx2] at hx
      exact hbU hx
    · intro x hx
      rcases List.mem_append.mp hx with h1 | h2
      · intro hmem
        exact hD x h1 (List.mem_of_mem_erase hmem)
      · rw [List.mem_singleton.mp h2]
        exact List.Nodup.not_mem_erase hA
  · have hbU : b ∈ U.batches_ := hb.resolve_left hbA
    rw [removeBatch_of_not_mem hbA, insert_of_mem hbU]
    exact ⟨List.Perm.refl _, hA, hU, hD, hwa, hwu⟩

/-- Folding `processReceivedProposal` over a whole collection preserves the same
invariants and the combined membership of the two sets. -/
theorem claimFold_inv (B : List Batch) :
    ∀ (s : BatchesCache),
      s.batches_cache_.batches_.Nodup → s.used_batches_cache_.batches_.Nodup →
      (∀ x ∈ s.used_batches_cache_.batches_, x ∉ s.batches_cache_.batches_) →
      ctxWF s.batches_cache_ → ctxWF s.used_batches_cache_ →
      (∀ b ∈ B, b ∈ s.batches_cache_.batches_ ∨ b ∈ s.used_batches_cache_.batches_) →
      ((s.processReceivedProposal B).batches_cache_.batches_
          ++ (s.processReceivedProposal B).used_batches_cache_.batches_).Perm
        (s.batches_cache_.batches_ ++ s.used_batches_cache_.batches_) ∧
      (s.processReceivedProposal B).batches_cache_.batches_.Nodup ∧
      (s.processReceivedProposal B).used_batches_cache_.batches_.Nodup ∧
      (∀ x ∈ (s.processReceivedProposal B).used_batches_cache_.batches_,
        x ∉ (s.processReceivedProposal B).batches_cache_.batches_) ∧
      ctxWF (s.processReceivedProposal B).batches_cache_ ∧
      ctxWF (s.processReceivedProposal B).used_batches_cache_ := by
  induction B with
  | nil =>
    intro s h1 h2 h3 h4 h5 _
    exact ⟨List.Perm.refl _, h1, h2, h3, h4, h5⟩
  | cons b rest ih =>
    intro s hA hU hD hwa hwu hB
    have hstep := claim_step_ctx hA hU hD hwa hwu (hB b (List.mem_cons_self _ _))
    obtain ⟨hp, hA2, hU2, hD2, hwa2, hwu2⟩ := hstep
    have hfold : s.processReceivedProposal (b :: rest)
        = BatchesCache.processReceivedProposal
            { s with batches_cache_ := (s.batches_cache_.removeBatch b).1,
                     used_batches_cache_ := (s.used_batches_cache_.insert b).1 }
            rest := rfl
    have hB2 : ∀ x ∈ rest,
        x ∈ (s.batches_cache_.removeBatch b).1.batches_
          ∨ x ∈ (s.used_batches_cache_.insert b).1.batches_ := by
      intro x hx
      have hmem : x ∈ s.batches_cache_.batches_ ++ s.used_batches_cache_.batches_ :=
        List.mem_append.mpr (hB x (List.mem_cons_of_mem _ hx))
      exact List.mem_append.mp (hp.symm.mem_iff.mp hmem)
    have ihr := ih { s with batches_cache_ := (s.batches_cache_.removeBatch b).1,
                            used_batches_cache_ := (s.used_batches_cache_.insert b).1 }
      hA2 hU2 hD2 hwa2 hwu2 hB2
    rw [hfold]
    exact ⟨ihr.1.trans hp, ihr.2.1, ihr.2.2.1, ihr.2.2.2.1, ihr.2.2.2.2.1,
      ihr.2.2.2.2.2⟩

/-- C10 (amended): provided the available and in-flight sets are
duplicate-free, disjoint and consistently counted, `claim_for_proposal` on
batches currently in the available set leaves the combined
`txs_count() = available.txs_count + in_flight.txs_count` and the union of
the two memberships unchanged: the call only repartitions batches between
the two sets. -/
theorem c10_claim_repartitions (s : BatchesCache) (B : List Batch)
    (hA : s.batches_cache_.batches_.Nodup) (hU : s.used_batches_cache_.batches_.Nodup)
    (hD : ∀ x ∈ s.used_batches_cache_.batches_, x ∉ s.batches_cache_.batches_)
    (hwa : ctxWF s.batches_cache_) (hwu : ctxWF s.used_batches_cache_)
    (hB : ∀ b ∈ B, b ∈ s.batches_cache_.batches_) :
    (s.processReceivedProposal B).txsCount = s.txsCount ∧
    ∀ x, (x ∈ (s.processReceivedProposal B).batches_cache_.batches_
            ∨ x ∈ (s.processReceivedProposal B).used_batches_cache_.batches_)
        ↔ (x ∈ s.batches_cache_.batches_ ∨ x ∈ s.used_batches_cache_.batches_) := by
  have h := claimFold_inv B s hA hU hD hwa hwu (fun b hb => Or.inl (hB b hb))
  constructor
  · have hca := h.2.2.2.2.1
    have hcu := h.2.2.2.2.2
    have hcnt := count_perm h.1
    rw [count_append, count_append] at hcnt
    unfold BatchesCache.txsCount
    omega
  · intro x
    constructor
    · intro hx
      exact List.mem_append.mp (h.1.mem_iff.mp (List.mem_append.mpr hx))
    · intro hx
      exact List.mem_append.mp (h.1.mem_iff.mpr (List.mem_append.mpr hx))

/-- Witness for C10: claiming the fully signed batch from the state holding
just it repartitions without changing the total. -/
theorem c10_witness :
    ((runOps emptyCache [CacheOp.ins batchFull]).processReceivedProposal
        [batchFull]).txsCount
      = (runOps emptyCache [CacheOp.ins batchFull]).txsCount ∧
    ∀ x, (x ∈ ((runOps emptyCache [CacheOp.ins batchFull]).processReceivedProposal
            [batchFull]).batches_cache_.batches_
        ∨ x ∈ ((runOps emptyCache [CacheOp.ins batchFull]).processReceivedProposal
            [batchFull]).used_batches_cache_.batches_)
      ↔ (x ∈ (runOps emptyCache [CacheOp.ins batchFull]).batches_cache_.batches_
        ∨ x ∈ (runOps emptyCache [CacheOp.ins batchFull]).used_batches_cache_.batches_) :=
  c10_claim_repartitions (runOps emptyCache [CacheOp.ins batchFull]) [batchFull]
    (by decide) (by decide) (by decide) (by decide) (by decide) (by decide)

theorem needRemove_nil (b : Batch) : needRemove [] b = false := by
  unfold needRemove
  rw [List.any_eq_false]
  intro tx _
  simp

theorem mergeLoop_disjoint :
    ∀ (todo : List Batch) (self : BatchesContext) (fc : Nat), todo.Nodup →
      (∀ b ∈ todo, b ∉ self.batches_) →
      mergeLoop self todo fc
        = ({ batches_ := self.batches_ ++ todo,
             tx_count_ := self.tx_count_ + BatchesContext.count todo }, [],
           fc - BatchesContext.count todo) := by
  intro todo
  induction todo with
  | nil =>
    intro self fc _ _
    show (self, [], fc) = _
    rw [show BatchesContext.count [] = 0 from rfl, List.append_nil]
    rfl
  | cons b rest ih =>
    intro self fc hnd hdisj
    simp only [mergeLoop]
    rw [if_neg (hdisj b (List.mem_cons_self _ _))]
    rw [ih { batches_ := self.batches_ ++ [b],
             tx_count_ := self.tx_count_ + b.transactions.length }
      (fc - b.transactions.length) (List.nodup_cons.mp hnd).2 (by
        intro x hx hmem
        rcases List.mem_append.mp hmem with h1 | h2
        · exact hdisj x (List.mem_cons_of_mem _ hx) h1
        · rw [List.mem_singleton.mp h2] at hx
          exact (List.nodup_cons.mp hnd).1 hx)]
    rw [count_cons, List.append_assoc, List.singleton_append, Nat.add_assoc,
      Nat.sub_sub]

/-- C7 (amended): provided every batch of `B` is in the available set, the
available set is duplicate-free with a consistent count and the in-flight set
is empty, `claim_for_proposal(B)` (idempotent on duplicates in `B`) followed
by `remove(∅)` restores the available set losslessly: same membership, same
`txs_count`, and the in-flight set is empty again. -/
theorem c7_claim_then_empty_remove (s : BatchesCache) (B : List Batch)
    (hA : s.batches_cache_.batches_.Nodup)
    (hwa : ctxWF s.batches_cache_)
    (hUe : s.used_batches_cache_.batches_ = [])
    (hUt : s.used_batches_cache_.tx_count_ = 0)
    (hB : ∀ b ∈ B, b ∈ s.batches_cache_.batches_) :
    (∀ x, x ∈ ((s.processReceivedProposal B).removeH []).batches_cache_.batches_
        ↔ x ∈ s.batches_cache_.batches_) ∧
    ((s.processReceivedProposal B).removeH []).batches_cache_.tx_count_
        = s.batches_cache_.tx_count_ ∧
    ((s.processReceivedProposal B).removeH []).used_batches_cache_.batches_ = [] ∧
    ((s.processReceivedProposal B).removeH []).used_batches_cache_.tx_count_ = 0 := by
  have hU : s.used_batches_cache_.batches_.Nodup := by
    rw [hUe]
    exact List.nodup_nil
  have hD : ∀ x ∈ s.used_batches_cache_.batches_, x ∉ s.batches_cache_.batches_ := by
    rw [hUe]
    intro x hx
    cases hx
  have hwu : ctxWF s.used_batches_cache_ := by
    show BatchesContext.count s.used_batches_cache_.batches_ = _
    rw [hUe, hUt]
    rfl
  have h := claimFold_inv B s hA hU hD hwa hwu (fun b hb => Or.inl (hB b hb))
  obtain ⟨hp, hA1, hU1, hD1, hwa1, hwu1⟩ := h
  rw [hUe, List.append_nil] at hp
  have hm := mergeLoop_disjoint
    (s.processReceivedProposal B).used_batches_cache_.batches_
    (s.processReceivedProposal B).batches_cache_
    (s.processReceivedProposal B).used_batches_cache_.tx_count_ hU1 hD1
  have hmerge1 : ((s.processReceivedProposal B).batches_cache_.merge
        (s.processReceivedProposal B).used_batches_cache_).1
      = { batches_ := (s.processReceivedProposal B).batches_cache_.batches_
            ++ (s.processReceivedProposal B).used_batches_cache_.batches_,
          tx_count_ := (s.processReceivedProposal B).batches_cache_.tx_count_
            + BatchesContext.count
                (s.processReceivedProposal B).used_batches_cache_.batches_ } := by
    unfold BatchesContext.merge
    rw [hm]
  have hmerge2 : ((s.processReceivedProposal B).batches_cache_.merge
        (s.processReceivedProposal B).used_batches_cache_).2
      = { batches_ := [],
          tx_count_ := (s.processReceivedProposal B).used_batches_cache_.tx_count_
            - BatchesContext.count
                (s.processReceivedProposal B).used_batches_cache_.batches_ } := by
    unfold BatchesContext.merge
    rw [hm]
  have hAv : ((s.processReceivedProposal B).removeH []).batches_cache_
      = (((s.processReceivedProposal B).batches_cache_.merge
          (s.processReceivedProposal B).used_batches_cache_).1).removeIf
        (needRemove []) := rfl
  have hUs : ((s.processReceivedProposal B).removeH []).used_batches_cache_
      = ((s.processReceivedProposal B).batches_cache_.merge
          (s.processReceivedProposal B).used_batches_cache_).2 := rfl
  have hfilter : ∀ ctx : BatchesContext, ctx.removeIf (needRemove [])
      = { batches_ := ctx.batches_, tx_count_ := ctx.tx_count_ } := by
    intro ctx
    unfold BatchesContext.removeIf
    rw [List.filter_congr (q := fun _ => true) (fun b _ => by
        rw [needRemove_nil b]
        rfl),
      List.filter_congr (q := fun _ => false) (fun b _ => needRemove_nil b),
      List.filter_true, List.filter_false]
    rw [show BatchesContext.count [] = 0 from rfl]
    rfl
  refine ⟨?_, ?_, ?_, ?_⟩
  · intro x
    rw [hAv, hfilter, hmerge1]
    show x ∈ (s.processReceivedProposal B).batches_cache_.batches_
        ++ (s.processReceivedProposal B).used_batches_cache_.batches_ ↔ _
    exact hp.mem_iff
  · rw [hAv, hfilter, hmerge1]
    show (s.processReceivedProposal B).batches_cache_.tx_count_
        + BatchesContext.count (s.processReceivedProposal B).used_batches_cache_.batches_
      = s.batches_cache_.tx_count_
    have hcnt := count_perm hp
    rw [count_append] at hcnt
    omega
  · rw [hUs, hmerge2]
  · rw [hUs, hmerge2]
    show (s.processReceivedProposal B).used_batches_cache_.tx_count_
        - BatchesContext.count (s.processReceivedProposal B).used_batches_cache_.batches_
      = 0
    omega

/-- Witness for C7: claiming the fully signed batch from the state holding
just it and then resolving with no hashes restores the available set. -/
theorem c7_witness :
    (∀ x, x ∈ (((runOps emptyCache [CacheOp.ins batchFull]).processReceivedProposal
          [batchFull]).removeH []).batches_cache_.batches_
        ↔ x ∈ (runOps emptyCache [CacheOp.ins batchFull]).batches_cache_.batches_) ∧
    (((runOps emptyCache [CacheOp.ins batchFull]).processReceivedProposal
        [batchFull]).removeH []).batches_cache_.tx_count_
      = (runOps emptyCache [CacheOp.ins batchFull]).batches_cache_.tx_count_ ∧
    (((runOps emptyCache [CacheOp.ins batchFull]).processReceivedProposal
        [batchFull]).removeH []).used_batches_cache_.batches_ = [] ∧
    (((runOps emptyCache [CacheOp.ins batchFull]).processReceivedProposal
        [batchFull]).removeH []).used_batches_cache_.tx_count_ = 0 :=
  c7_claim_then_empty_remove (runOps emptyCache [CacheOp.ins batchFull]) [batchFull]
    (by decide) (by decide) (by decide) (by decide) (by decide)

/-- C8 (amended): inserting the same fully signed batch twice returns the same
`available.txs_count` from both calls — the second insert is deduplicated in
the available set — but a `Prepared` notification is emitted by each of the
two calls, not only the first. -/
theorem c8_idempotent_insert_count (s : BatchesCache) (b : Batch)
    (hb : b.hasAllSignatures = true) (hu : b ∉ s.used_batches_cache_.batches_) :
    (s.insertB b).2.2 = ((s.insertB b).1.insertB b).2.2 ∧
    countPrepared (s.insertB b).2.1 = 1 ∧
    countPrepared ((s.insertB b).1.insertB b).2.1 = 1 := by
  have h1 : s.insertB b
      = (({ s with batches_cache_ := (s.batches_cache_.insert b).1
           }).removeMSTCacheB b,
         [Event.preparedBatches none],
         (({ s with batches_cache_ := (s.batches_cache_.insert b).1
            }).removeMSTCacheB b).batches_cache_.tx_count_) := by
    unfold BatchesCache.insertB
    rw [if_pos hb, if_neg hu]
  rw [h1]
  have hc2 := removeMSTCacheB_contexts
    { s with batches_cache_ := (s.batches_cache_.insert b).1 } b
  have hmem2 : b ∈ (({ s with batches_cache_ := (s.batches_cache_.insert b).1
      }).removeMSTCacheB b).batches_cache_.batches_ := by
    rw [hc2.1]
    exact insert_mem s.batches_cache_ b
  have hu2 : b ∉ (({ s with batches_cache_ := (s.batches_cache_.insert b).1
      }).removeMSTCacheB b).used_batches_cache_.batches_ := by
    rw [hc2.2]
    exact hu
  have h2 : ((({ s with batches_cache_ := (s.batches_cache_.insert b).1
        }).removeMSTCacheB b)).insertB b
      = (((({ s with batches_cache_ := (s.batches_cache_.insert b).1
            }).removeMSTCacheB b)).removeMSTCacheB b,
         [Event.preparedBatches none],
         (((({ s with batches_cache_ := (s.batches_cache_.insert b).1
             }).removeMSTCacheB b)).removeMSTCacheB b).batches_cache_.tx_count_) := by
    unfold BatchesCache.insertB
    rw [if_pos hb, if_neg hu2, insert_of_mem hmem2]
  rw [h2]
  have hc3 := removeMSTCacheB_contexts
    (({ s with batches_cache_ := (s.batches_cache_.insert b).1 }).removeMSTCacheB b) b
  rw [hc3.1]
  exact ⟨rfl, rfl, rfl⟩

/-- Witness for C8 (amended) at the fully signed concrete batch. -/
theorem c8_witness :
    (emptyCache.insertB batchFull).2.2
        = ((emptyCache.insertB batchFull).1.insertB batchFull).2.2 ∧
    countPrepared (emptyCache.insertB batchFull).2.1 = 1 ∧
    countPrepared ((emptyCache.insertB batchFull).1.insertB batchFull).2.1 = 1 :=
  c8_idempotent_insert_count emptyCache batchFull (by decide) (by decide)

end Iroha
